import Mathlib

/-!
Verification development for the LRU cache in `src/controller/lru_cache.go`
(repository `LRUCacheAssignment`).

The Go program keeps a fixed-capacity LRU cache with per-entry TTL:

* `cacheEntry`  : `key string`, `value interface{}`, `expiration time.Time`;
* `LRUCache`    : `capacity int`, `cache map[string]*list.Element`,
  `list *list.List`, `mutex sync.Mutex`;
* `Get`, `Set`, `ClearCache`, `GetCacheState` are the four operations.

Shallow embedding choices:

* instants (`time.Time`) are modelled as natural numbers; `e.After(t)` is
  `t < e`; a `time.Duration` TTL is a natural number added to "now";
  every operation receives the instant(s) at which `time.Now()` is read;
* `interface{}` values are `GoVal := Option String`: `none` is the Go
  `nil` interface, `some s` an arbitrary non-nil payload;
* the `container/list` elements are identified by allocation ids
  (`ElemId := Nat`); the recency order is the id list `list` (front first),
  the heap that a `*list.Element` dereferences into is the total function
  `store : ElemId → cacheEntry` (Go never frees explicitly, so removal
  only unlinks ids; `nextId` is the allocator);
* the Go map is an association list `cache : List (String × ElemId)`
  with map-update/delete semantics (`ainsert`, `aerase`);
* the mutex is not modelled: each operation is one atomic function.
-/

/-- Go `interface{}` payload: `none` is the `nil` interface value. -/
abbrev GoVal := Option String

/-- `cacheEntry` from the source: key, value and absolute expiration instant. -/
structure cacheEntry where
  key : String
  value : GoVal
  expiration : Nat
deriving DecidableEq, Repr

/-- Allocation id standing for one `*list.Element`. -/
abbrev ElemId := Nat

/-- Association-list lookup; models Go's `m[k]` (comma-ok form). -/
def alookup {β : Type} (m : List (String × β)) (k : String) : Option β :=
  match m with
  | [] => none
  | (k', v) :: rest => if k' = k then some v else alookup rest k

/-- Association-list delete; models Go's `delete(m, k)`. -/
def aerase {β : Type} (m : List (String × β)) (k : String) : List (String × β) :=
  match m with
  | [] => []
  | (k', v) :: rest => if k' = k then aerase rest k else (k', v) :: aerase rest k

/-- Association-list overwrite; models Go's `m[k] = v`. -/
def ainsert {β : Type} (m : List (String × β)) (k : String) (v : β) :
    List (String × β) :=
  (k, v) :: aerase m k

/-- `LRUCache` from the source.  `capacity` is a Go `int`; `cache` is the
lookup table, `list` the recency index (front = most recently used),
`store` the heap behind the element pointers, `nextId` the allocator. -/
structure LRUCache where
  capacity : Int
  cache : List (String × ElemId)
  list : List ElemId
  store : ElemId → cacheEntry
  nextId : ElemId

/-- Point-update of the heap: mutation of the entry a pointer refers to. -/
def storeUpdate (st : ElemId → cacheEntry) (e : ElemId) (entry : cacheEntry) :
    ElemId → cacheEntry :=
  fun i => if i = e then entry else st i

/-- `c.list.MoveToFront(element)` on the id list. -/
def moveToFront (l : List ElemId) (e : ElemId) : List ElemId :=
  e :: l.erase e

/-- `c.list.Back()` : the last element; `0` stands for the nil pointer of
an empty list (never dereferenced on the paths the code takes). -/
def goBack (l : List ElemId) : ElemId :=
  l.getLastD 0

/-- `func (c *LRUCache) Get(key string) interface{}` with the instant at
which `time.Now()` is read passed explicitly.  Returns the Go return value
and the post state. -/
def LRUCache.Get (c : LRUCache) (key : String) (now : Nat) : GoVal × LRUCache :=
  match alookup c.cache key with
  | some element =>
      if now < (c.store element).expiration then
        ((c.store element).value, { c with list := moveToFront c.list element })
      else
        (none, { c with cache := aerase c.cache key, list := c.list.erase element })
  | none => (none, c)

/-- `func (c *LRUCache) Set(key string, value interface{}, expiration time.Duration)`.
`ttl` is the duration in the same units as instants; `now` is the instant
`time.Now()` reads. -/
def LRUCache.Set (c : LRUCache) (key : String) (value : GoVal) (ttl now : Nat) :
    LRUCache :=
  match alookup c.cache key with
  | some element =>
      { c with list := moveToFront c.list element,
               store := storeUpdate c.store element
                 ⟨(c.store element).key, value, now + ttl⟩ }
  | none =>
      let element := c.nextId
      let c1 : LRUCache :=
        { c with store := storeUpdate c.store element ⟨key, value, now + ttl⟩,
                 list := element :: c.list,
                 cache := ainsert c.cache key element,
                 nextId := c.nextId + 1 }
      if (c1.cache.length : Int) > c1.capacity then
        -- delete(c.cache, c.list.Back().Value.(*cacheEntry).key)
        let c2 : LRUCache :=
          { c1 with cache := aerase c1.cache ((c1.store (goBack c1.list)).key) }
        -- c.list.Remove(c.list.Back())
        { c2 with list := c2.list.erase (goBack c2.list) }
      else c1

/-- `func (c *LRUCache) ClearCache()` : fresh map, `list.Init()`. -/
def LRUCache.ClearCache (c : LRUCache) : LRUCache :=
  { c with cache := [], list := [] }

/-- The loop body of `GetCacheState`: iterate the map bindings (Go map
iteration is over a snapshot of the bindings; only the binding currently
visited is ever deleted), collecting unexpired entries and deleting
expired ones from both structures. -/
def sweep (c : LRUCache) (pairs : List (String × ElemId)) (acc : List cacheEntry)
    (now : Nat) : List cacheEntry × LRUCache :=
  match pairs with
  | [] => (acc, c)
  | (_, element) :: rest =>
      if now < (c.store element).expiration then
        sweep c rest (acc ++ [c.store element]) now
      else
        sweep { c with cache := aerase c.cache ((c.store element).key),
                       list := c.list.erase element } rest acc now

/-- `func (c *LRUCache) GetCacheState() []cacheEntry` : returns the
non-expired entries and, as a side effect, removes the expired ones. -/
def LRUCache.GetCacheState (c : LRUCache) (now : Nat) :
    List cacheEntry × LRUCache :=
  sweep c c.cache [] now

/-- Cache construction as in `main`: empty map, fresh list, a capacity.
The heap function needs a value on unallocated ids; it is never read there. -/
def NewLRUCache (capacity : Int) : LRUCache :=
  { capacity := capacity, cache := [], list := [],
    store := fun _ => ⟨"", none, 0⟩, nextId := 0 }

/-- The `GET /cache/:key` handler body: `value != nil` selects the HTTP
status (200 with the value, 404 otherwise). -/
def getHandler (c : LRUCache) (key : String) (now : Nat) : Nat × LRUCache :=
  let value := (LRUCache.Get c key now).1
  if value ≠ none then (200, (LRUCache.Get c key now).2)
  else (404, (LRUCache.Get c key now).2)

/-- One external operation together with the instants its `time.Now()`
reads return. -/
inductive CacheOp where
  | get (key : String) (now : Nat)
  | set (key : String) (value : GoVal) (ttl now : Nat)
  | clear
  | snapshot (now : Nat)

/-- State transition of one operation (return values discarded). -/
def applyOp (c : LRUCache) : CacheOp → LRUCache
  | .get k now => (LRUCache.Get c k now).2
  | .set k v ttl now => LRUCache.Set c k v ttl now
  | .clear => LRUCache.ClearCache c
  | .snapshot now => (LRUCache.GetCacheState c now).2

/-- Run a sequence of operations. -/
def runOps (c : LRUCache) : List CacheOp → LRUCache
  | [] => c
  | op :: rest => runOps (applyOp c op) rest

/-- Structural consistency of the two structures (the invariant the spec
states in §3): distinct map keys, distinct list elements, every map
binding points into the list at an entry carrying the binding's key,
every list element is found back in the map under its stored key, all
live ids are below the allocator, and both structures have the same size. -/
def Consistent (c : LRUCache) : Prop :=
  (c.cache.map Prod.fst).Nodup ∧
  c.list.Nodup ∧
  (∀ p ∈ c.cache, p.2 ∈ c.list ∧ (c.store p.2).key = p.1) ∧
  (∀ id ∈ c.list, alookup c.cache ((c.store id).key) = some id) ∧
  (∀ id ∈ c.list, id < c.nextId) ∧
  c.cache.length = c.list.length

instance (c : LRUCache) : Decidable (Consistent c) := by
  unfold Consistent; infer_instance

/-! ### Association-list lemmas -/

theorem alookup_eq_none {β : Type} {m : List (String × β)} {k : String} :
    alookup m k = none ↔ k ∉ m.map Prod.fst := by
  induction m with
  | nil => simp [alookup]
  | cons p rest ih =>
      obtain ⟨k', v⟩ := p
      by_cases hk : k' = k
      · subst hk
        simp [alookup]
      · have hk2 : ¬k = k' := fun hh => hk hh.symm
        simp [alookup, hk, hk2, ih]

theorem mem_of_alookup_eq_some {β : Type} {m : List (String × β)} {k : String}
    {v : β} (h : alookup m k = some v) : (k, v) ∈ m := by
  induction m with
  | nil => simp [alookup] at h
  | cons p rest ih =>
      obtain ⟨k', v'⟩ := p
      by_cases hk : k' = k
      · subst hk
        rw [alookup, if_pos rfl, Option.some_inj] at h
        rw [h]
        exact List.mem_cons_self _ _
      · rw [alookup, if_neg hk] at h
        exact List.mem_cons_of_mem _ (ih h)

theorem alookup_eq_some_of_mem {β : Type} {m : List (String × β)} {k : String}
    {v : β} (hnd : (m.map Prod.fst).Nodup) (h : (k, v) ∈ m) :
    alookup m k = some v := by
  induction m with
  | nil => simp at h
  | cons p rest ih =>
      obtain ⟨k', v'⟩ := p
      rcases List.mem_cons.mp h with h | h
      · cases h
        simp [alookup]
      · have hk : k' ≠ k := by
          intro hkk
          subst hkk
          exact (List.nodup_cons.mp hnd).1 (List.mem_map.mpr ⟨(k', v), h, rfl⟩)
        simp [alookup, hk]
        exact ih (List.nodup_cons.mp hnd).2 h

theorem alookup_aerase_self {β : Type} (m : List (String × β)) (k : String) :
    alookup (aerase m k) k = none := by
  induction m with
  | nil => simp [aerase, alookup]
  | cons p rest ih =>
      obtain ⟨k', v⟩ := p
      by_cases hk : k' = k <;> simp [aerase, alookup, hk, ih]

theorem alookup_aerase_ne {β : Type} (m : List (String × β)) {k k' : String}
    (h : k' ≠ k) : alookup (aerase m k) k' = alookup m k' := by
  induction m with
  | nil => simp [aerase]
  | cons p rest ih =>
      obtain ⟨k₀, v⟩ := p
      by_cases hk : k₀ = k
      · subst hk
        have h0 : k₀ ≠ k' := fun hh => h hh.symm
        simp [aerase, alookup, h0, ih]
      · simp [aerase, alookup, hk, ih]

theorem aerase_eq_filter {β : Type} (m : List (String × β)) (k : String) :
    aerase m k = m.filter (fun p => p.1 ≠ k) := by
  induction m with
  | nil => rfl
  | cons p rest ih =>
      obtain ⟨k', v⟩ := p
      by_cases hk : k' = k <;> simp [aerase, hk, ih]

theorem aerase_sublist {β : Type} (m : List (String × β)) (k : String) :
    (aerase m k).Sublist m := by
  rw [aerase_eq_filter]
  exact List.filter_sublist m

theorem mem_aerase {β : Type} {m : List (String × β)} {k : String}
    {p : String × β} : p ∈ aerase m k ↔ p ∈ m ∧ p.1 ≠ k := by
  rw [aerase_eq_filter]
  simp [List.mem_filter]

theorem aerase_of_alookup_eq_none {β : Type} {m : List (String × β)}
    {k : String} (h : alookup m k = none) : aerase m k = m := by
  induction m with
  | nil => simp [aerase]
  | cons p rest ih =>
      obtain ⟨k', v⟩ := p
      by_cases hk : k' = k
      · subst hk; simp [alookup] at h
      · simp [alookup, hk] at h
        simp [aerase, hk, ih h]

theorem length_aerase_of_alookup_eq_some {β : Type} {m : List (String × β)}
    {k : String} {v : β} (hnd : (m.map Prod.fst).Nodup)
    (h : alookup m k = some v) : m.length = (aerase m k).length + 1 := by
  induction m with
  | nil => simp [alookup] at h
  | cons p rest ih =>
      obtain ⟨k', v'⟩ := p
      by_cases hk : k' = k
      · subst hk
        have hnone : alookup rest k' = none := by
          rw [alookup_eq_none]
          exact (List.nodup_cons.mp hnd).1
        simp [aerase, aerase_of_alookup_eq_none hnone]
      · simp [alookup, hk] at h
        simp [aerase, hk, ih (List.nodup_cons.mp hnd).2 h]

/-! ### Branch lemmas for the operations -/

theorem Get_absent {c : LRUCache} {k : String} (now : Nat)
    (h : alookup c.cache k = none) : LRUCache.Get c k now = (none, c) := by
  simp only [LRUCache.Get, h]

theorem Get_valid {c : LRUCache} {k : String} {now : Nat} {id : ElemId}
    (h : alookup c.cache k = some id) (hv : now < (c.store id).expiration) :
    LRUCache.Get c k now =
      ((c.store id).value, { c with list := moveToFront c.list id }) := by
  simp only [LRUCache.Get, h, if_pos hv]

theorem Get_expired {c : LRUCache} {k : String} {now : Nat} {id : ElemId}
    (h : alookup c.cache k = some id) (hv : ¬now < (c.store id).expiration) :
    LRUCache.Get c k now =
      (none, { c with cache := aerase c.cache k, list := c.list.erase id }) := by
  simp only [LRUCache.Get, h, if_neg hv]

theorem Set_update {c : LRUCache} {k : String} {id : ElemId}
    (v : GoVal) (ttl now : Nat) (h : alookup c.cache k = some id) :
    LRUCache.Set c k v ttl now =
      { c with list := moveToFront c.list id,
               store := storeUpdate c.store id
                 ⟨(c.store id).key, v, now + ttl⟩ } := by
  simp only [LRUCache.Set, h]

/-- The state `Set` builds on the miss path before the capacity test. -/
def setInsert (c : LRUCache) (k : String) (v : GoVal) (ttl now : Nat) : LRUCache :=
  { c with store := storeUpdate c.store c.nextId ⟨k, v, now + ttl⟩,
           list := c.nextId :: c.list,
           cache := ainsert c.cache k c.nextId,
           nextId := c.nextId + 1 }

theorem length_ainsert_of_alookup_eq_none {β : Type} {m : List (String × β)}
    {k : String} (h : alookup m k = none) (v : β) :
    (ainsert m k v).length = m.length + 1 := by
  unfold ainsert
  rw [aerase_of_alookup_eq_none h]
  rfl

theorem Set_insert_fits {c : LRUCache} {k : String} (v : GoVal) (ttl now : Nat)
    (h : alookup c.cache k = none)
    (hroom : ¬(c.cache.length : Int) + 1 > c.capacity) :
    LRUCache.Set c k v ttl now = setInsert c k v ttl now := by
  have hlen : ((ainsert c.cache k c.nextId).length : Int) = (c.cache.length : Int) + 1 := by
    rw [length_ainsert_of_alookup_eq_none h]
    push_cast
    ring
  simp only [LRUCache.Set, h, setInsert]
  rw [hlen, if_neg hroom]

theorem Set_insert_evict {c : LRUCache} {k : String} (v : GoVal) (ttl now : Nat)
    (h : alookup c.cache k = none)
    (hover : (c.cache.length : Int) + 1 > c.capacity) :
    LRUCache.Set c k v ttl now =
      (let c1 := setInsert c k v ttl now
       let c2 : LRUCache :=
         { c1 with cache := aerase c1.cache ((c1.store (goBack c1.list)).key) }
       { c2 with list := c2.list.erase (goBack c2.list) }) := by
  have hlen : ((ainsert c.cache k c.nextId).length : Int) = (c.cache.length : Int) + 1 := by
    rw [length_ainsert_of_alookup_eq_none h]
    push_cast
    ring
  simp only [LRUCache.Set, h, setInsert]
  rw [hlen, if_pos hover]

/-! ### Preservation of structural consistency -/

theorem getLastD_mem {l : List ElemId} (h : l ≠ []) (d : ElemId) :
    l.getLastD d ∈ l := by
  cases l with
  | nil => exact absurd rfl h
  | cons x xs =>
      rw [List.getLastD_cons]
      exact List.getLastD_mem_cons _ _

/-- Removing one binding (`k ↦ id`) from the map together with `id` from
the recency list preserves consistency.  This covers the lazy-expiration
path of `Get`, the eviction step of `Set` and each deletion performed by
`GetCacheState`. -/
theorem consistent_remove {c : LRUCache} (h : Consistent c) {k : String}
    {id : ElemId} (hk : alookup c.cache k = some id) :
    Consistent { c with cache := aerase c.cache k, list := c.list.erase id } := by
  obtain ⟨n1, n2, h3, h4, h5, h6⟩ := h
  have hmem : (k, id) ∈ c.cache := mem_of_alookup_eq_some hk
  have hidl : id ∈ c.list := (h3 _ hmem).1
  have hkey : (c.store id).key = k := (h3 _ hmem).2
  refine ⟨?_, ?_, ?_, ?_, ?_, ?_⟩
  · exact n1.sublist ((aerase_sublist c.cache k).map Prod.fst)
  · exact n2.erase id
  · intro p hp
    obtain ⟨hpc, hpk⟩ := mem_aerase.mp hp
    refine ⟨?_, (h3 _ hpc).2⟩
    rw [n2.mem_erase_iff]
    refine ⟨?_, (h3 _ hpc).1⟩
    intro hpe
    apply hpk
    rw [← (h3 _ hpc).2, hpe, hkey]
  · intro i hi
    have hi' := List.mem_of_mem_erase hi
    have hne : i ≠ id := (n2.mem_erase_iff.mp hi).1
    have hkne : (c.store i).key ≠ k := by
      intro hkk
      have hh := h4 i hi'
      rw [hkk, hk] at hh
      exact hne (Option.some_inj.mp hh).symm
    rw [alookup_aerase_ne _ hkne]
    exact h4 i hi'
  · intro i hi
    exact h5 i (List.mem_of_mem_erase hi)
  · show (aerase c.cache k).length = (c.list.erase id).length
    have e1 := length_aerase_of_alookup_eq_some n1 hk
    have e2 := List.length_erase_add_one hidl
    omega

theorem moveToFront_mem {l : List ElemId} (hnd : l.Nodup) {id : ElemId}
    (hid : id ∈ l) (i : ElemId) : i ∈ moveToFront l id ↔ i ∈ l := by
  unfold moveToFront
  rw [List.mem_cons, hnd.mem_erase_iff]
  constructor
  · rintro (rfl | ⟨_, hi⟩)
    · exact hid
    · exact hi
  · intro hi
    by_cases hii : i = id
    · exact Or.inl hii
    · exact Or.inr ⟨hii, hi⟩

/-- `MoveToFront` of a live element preserves consistency (the `Get` hit
path and the recency part of the `Set` update path). -/
theorem consistent_moveToFront {c : LRUCache} (h : Consistent c) {id : ElemId}
    (hid : id ∈ c.list) :
    Consistent { c with list := moveToFront c.list id } := by
  obtain ⟨n1, n2, h3, h4, h5, h6⟩ := h
  refine ⟨n1, ?_, ?_, ?_, ?_, ?_⟩
  · exact List.nodup_cons.mpr ⟨n2.not_mem_erase, n2.erase id⟩
  · intro p hp
    exact ⟨(moveToFront_mem n2 hid _).mpr (h3 _ hp).1, (h3 _ hp).2⟩
  · intro i hi
    exact h4 i ((moveToFront_mem n2 hid i).mp hi)
  · intro i hi
    exact h5 i ((moveToFront_mem n2 hid i).mp hi)
  · show c.cache.length = (moveToFront c.list id).length
    have e2 := List.length_erase_add_one hid
    unfold moveToFront
    simp only [List.length_cons]
    omega

/-- Overwriting the heap in a way that keeps every entry's key preserves
consistency (the in-place value/expiration update of `Set`). -/
theorem consistent_store_keys {c : LRUCache} (h : Consistent c)
    (st : ElemId → cacheEntry) (hkeys : ∀ i, (st i).key = (c.store i).key) :
    Consistent { c with store := st } := by
  obtain ⟨n1, n2, h3, h4, h5, h6⟩ := h
  refine ⟨n1, n2, ?_, ?_, h5, h6⟩
  · intro p hp
    refine ⟨(h3 _ hp).1, ?_⟩
    rw [hkeys]
    exact (h3 _ hp).2
  · intro i hi
    rw [hkeys]
    exact h4 i hi

/-- Allocating a fresh element for an absent key and linking it at the
front of both structures preserves consistency (the `Set` miss path
before the capacity test). -/
theorem consistent_setInsert {c : LRUCache} (h : Consistent c) {k : String}
    (hk : alookup c.cache k = none) (v : GoVal) (ttl now : Nat) :
    Consistent (setInsert c k v ttl now) := by
  obtain ⟨n1, n2, h3, h4, h5, h6⟩ := h
  have hknotin : k ∉ c.cache.map Prod.fst := alookup_eq_none.mp hk
  have hfresh : c.nextId ∉ c.list := fun hmem => lt_irrefl _ (h5 _ hmem)
  have hins : ainsert c.cache k c.nextId = (k, c.nextId) :: c.cache := by
    unfold ainsert
    rw [aerase_of_alookup_eq_none hk]
  unfold setInsert
  refine ⟨?_, ?_, ?_, ?_, ?_, ?_⟩
  · rw [hins]
    simpa using List.nodup_cons.mpr ⟨hknotin, n1⟩
  · exact List.nodup_cons.mpr ⟨hfresh, n2⟩
  · rw [hins]
    intro p hp
    rcases List.mem_cons.mp hp with hp | hp
    · subst hp
      refine ⟨List.mem_cons_self _ _, ?_⟩
      simp [storeUpdate]
    · have hlt : p.2 < c.nextId := h5 _ (h3 _ hp).1
      have hne : p.2 ≠ c.nextId := Nat.ne_of_lt hlt
      refine ⟨List.mem_cons_of_mem _ (h3 _ hp).1, ?_⟩
      simp only [storeUpdate, if_neg hne]
      exact (h3 _ hp).2
  · rw [hins]
    intro i hi
    rcases List.mem_cons.mp hi with hi | hi
    · subst hi
      simp [storeUpdate, alookup]
    · have hne : i ≠ c.nextId := Nat.ne_of_lt (h5 _ hi)
      have hkne : (c.store i).key ≠ k := by
        intro hkk
        have hh := h4 i hi
        rw [hkk, hk] at hh
        exact Option.noConfusion hh
      simp only [storeUpdate, if_neg hne, alookup]
      rw [if_neg (fun hh => hkne hh.symm)]
      exact h4 i hi
  · intro i hi
    rcases List.mem_cons.mp hi with hi | hi
    · subst hi
      exact Nat.lt_succ_self _
    · exact Nat.lt_succ_of_lt (h5 _ hi)
  · rw [hins]
    simp [h6]

theorem consistent_Get {c : LRUCache} (h : Consistent c) (k : String)
    (now : Nat) : Consistent (LRUCache.Get c k now).2 := by
  cases hl : alookup c.cache k with
  | none =>
      rw [Get_absent now hl]
      exact h
  | some id =>
      by_cases hv : now < (c.store id).expiration
      · rw [Get_valid hl hv]
        exact consistent_moveToFront h ((h.2.2.1 _ (mem_of_alookup_eq_some hl)).1)
      · rw [Get_expired hl hv]
        exact consistent_remove h hl

theorem consistent_Set {c : LRUCache} (h : Consistent c) (k : String)
    (v : GoVal) (ttl now : Nat) : Consistent (LRUCache.Set c k v ttl now) := by
  cases hl : alookup c.cache k with
  | some id =>
      rw [Set_update v ttl now hl]
      have hid : id ∈ c.list := (h.2.2.1 _ (mem_of_alookup_eq_some hl)).1
      have h1 := consistent_moveToFront h hid
      exact consistent_store_keys h1 _ (fun i => by
        by_cases hii : i = id
        · subst hii
          simp [storeUpdate]
        · simp [storeUpdate, hii])
  | none =>
      have h1 := consistent_setInsert h hl v ttl now
      by_cases hcap : (c.cache.length : Int) + 1 > c.capacity
      · rw [Set_insert_evict v ttl now hl hcap]
        have hne : (setInsert c k v ttl now).list ≠ [] := by
          unfold setInsert
          simp
        have hvb : goBack (setInsert c k v ttl now).list ∈
            (setInsert c k v ttl now).list := getLastD_mem hne 0
        have hlook := h1.2.2.2.1 _ hvb
        exact consistent_remove h1 hlook
      · rw [Set_insert_fits v ttl now hl hcap]
        exact h1

theorem consistent_ClearCache (c : LRUCache) :
    Consistent (LRUCache.ClearCache c) := by
  unfold Consistent LRUCache.ClearCache
  simp

theorem consistent_sweep {pairs : List (String × ElemId)} :
    ∀ {c : LRUCache} {acc : List cacheEntry} {now : Nat}, Consistent c →
    (∀ p ∈ pairs, alookup c.cache p.1 = some p.2) →
    (pairs.map Prod.fst).Nodup →
    Consistent (sweep c pairs acc now).2 := by
  induction pairs with
  | nil =>
      intro c acc now h _ _
      exact h
  | cons p rest ih =>
      intro c acc now h hp hnd
      obtain ⟨k, id⟩ := p
      have hnd' : (k :: rest.map Prod.fst).Nodup := by simpa using hnd
      have hk : alookup c.cache k = some id := hp _ (List.mem_cons_self _ _)
      have hkey : (c.store id).key = k := (h.2.2.1 _ (mem_of_alookup_eq_some hk)).2
      unfold sweep
      by_cases hv : now < (c.store id).expiration
      · rw [if_pos hv]
        exact ih h (fun q hq => hp q (List.mem_cons_of_mem _ hq))
          (List.nodup_cons.mp hnd').2
      · rw [if_neg hv]
        have h1 : Consistent { c with
            cache := aerase c.cache ((c.store id).key),
            list := c.list.erase id } := by
          rw [hkey]
          exact consistent_remove h hk
        apply ih h1 ?_ (List.nodup_cons.mp hnd').2
        intro q hq
        have hqk : q.1 ≠ k := by
          intro hh
          exact (List.nodup_cons.mp hnd').1
            (by rw [← hh]; exact List.mem_map.mpr ⟨q, hq, rfl⟩)
        show alookup (aerase c.cache ((c.store id).key)) q.1 = some q.2
        rw [hkey, alookup_aerase_ne _ hqk]
        exact hp q (List.mem_cons_of_mem _ hq)

theorem consistent_GetCacheState {c : LRUCache} (h : Consistent c) (now : Nat) :
    Consistent (LRUCache.GetCacheState c now).2 := by
  unfold LRUCache.GetCacheState
  apply consistent_sweep h ?_ h.1
  intro p hp
  exact alookup_eq_some_of_mem h.1 hp

theorem consistent_applyOp {c : LRUCache} (h : Consistent c) (op : CacheOp) :
    Consistent (applyOp c op) := by
  cases op with
  | get k now => exact consistent_Get h k now
  | set k v ttl now => exact consistent_Set h k v ttl now
  | clear => exact consistent_ClearCache c
  | snapshot now => exact consistent_GetCacheState h now

/-! ### Size bound and capacity preservation -/

theorem length_Get_le (c : LRUCache) (k : String) (now : Nat) :
    (LRUCache.Get c k now).2.cache.length ≤ c.cache.length := by
  cases hl : alookup c.cache k with
  | none =>
      rw [Get_absent now hl]
  | some id =>
      by_cases hv : now < (c.store id).expiration
      · rw [Get_valid hl hv]
      · rw [Get_expired hl hv]
        exact (aerase_sublist _ _).length_le

theorem length_sweep_le {pairs : List (String × ElemId)} :
    ∀ {c : LRUCache} {acc : List cacheEntry} {now : Nat},
    (sweep c pairs acc now).2.cache.length ≤ c.cache.length := by
  induction pairs with
  | nil =>
      intro c acc now
      exact le_refl _
  | cons p rest ih =>
      intro c acc now
      obtain ⟨k, id⟩ := p
      unfold sweep
      by_cases hv : now < (c.store id).expiration
      · rw [if_pos hv]
        exact ih
      · rw [if_neg hv]
        exact le_trans ih (aerase_sublist _ _).length_le

theorem length_setInsert (c : LRUCache) {k : String} (v : GoVal) (ttl now : Nat)
    (h : alookup c.cache k = none) :
    (setInsert c k v ttl now).cache.length = c.cache.length + 1 := by
  show (ainsert c.cache k c.nextId).length = _
  exact length_ainsert_of_alookup_eq_none h _

theorem length_Set_le {c : LRUCache} (h : Consistent c) (k : String)
    (v : GoVal) (ttl now : Nat) (hb : (c.cache.length : Int) ≤ c.capacity) :
    ((LRUCache.Set c k v ttl now).cache.length : Int) ≤ c.capacity := by
  cases hl : alookup c.cache k with
  | some id =>
      rw [Set_update v ttl now hl]
      exact hb
  | none =>
      by_cases hcap : (c.cache.length : Int) + 1 > c.capacity
      · rw [Set_insert_evict v ttl now hl hcap]
        have h1 := consistent_setInsert h hl v ttl now
        have hne : (setInsert c k v ttl now).list ≠ [] := by
          unfold setInsert
          simp
        have hvb := getLastD_mem hne 0
        have hlook := h1.2.2.2.1 _ hvb
        have e1 := length_aerase_of_alookup_eq_some h1.1 hlook
        have e2 := length_setInsert c v ttl now hl
        show ((aerase (setInsert c k v ttl now).cache
          (((setInsert c k v ttl now).store
            ((setInsert c k v ttl now).list.getLastD 0)).key)).length : Int) ≤ c.capacity
        omega
      · rw [Set_insert_fits v ttl now hl hcap]
        have e2 := length_setInsert c v ttl now hl
        omega

theorem capacity_Get (c : LRUCache) (k : String) (now : Nat) :
    (LRUCache.Get c k now).2.capacity = c.capacity := by
  cases hl : alookup c.cache k with
  | none => rw [Get_absent now hl]
  | some id =>
      by_cases hv : now < (c.store id).expiration
      · rw [Get_valid hl hv]
      · rw [Get_expired hl hv]

theorem capacity_sweep {pairs : List (String × ElemId)} :
    ∀ {c : LRUCache} {acc : List cacheEntry} {now : Nat},
    (sweep c pairs acc now).2.capacity = c.capacity := by
  induction pairs with
  | nil =>
      intro c acc now
      rfl
  | cons p rest ih =>
      intro c acc now
      obtain ⟨k, id⟩ := p
      unfold sweep
      by_cases hv : now < (c.store id).expiration
      · rw [if_pos hv]
        exact ih
      · rw [if_neg hv]
        exact ih

theorem capacity_Set (c : LRUCache) (k : String) (v : GoVal) (ttl now : Nat) :
    (LRUCache.Set c k v ttl now).capacity = c.capacity := by
  cases hl : alookup c.cache k with
  | some id => rw [Set_update v ttl now hl]
  | none =>
      by_cases hcap : (c.cache.length : Int) + 1 > c.capacity
      · rw [Set_insert_evict v ttl now hl hcap]
        rfl
      · rw [Set_insert_fits v ttl now hl hcap]
        rfl

theorem capacity_applyOp (c : LRUCache) (op : CacheOp) :
    (applyOp c op).capacity = c.capacity := by
  cases op with
  | get k now => exact capacity_Get c k now
  | set k v ttl now => exact capacity_Set c k v ttl now
  | clear => rfl
  | snapshot now => exact capacity_sweep

theorem length_applyOp_le {c : LRUCache} (h : Consistent c)
    (hb : (c.cache.length : Int) ≤ c.capacity) (op : CacheOp) :
    ((applyOp c op).cache.length : Int) ≤ (applyOp c op).capacity := by
  rw [capacity_applyOp]
  cases op with
  | get k now =>
      have hle := length_Get_le c k now
      show ((LRUCache.Get c k now).2.cache.length : Int) ≤ c.capacity
      omega
  | set k v ttl now => exact length_Set_le h k v ttl now hb
  | clear =>
      show ((0 : Nat) : Int) ≤ c.capacity
      omega
  | snapshot now =>
      have : (sweep c c.cache [] now).2.cache.length ≤ c.cache.length :=
        length_sweep_le
      show ((sweep c c.cache [] now).2.cache.length : Int) ≤ c.capacity
      omega

theorem runOps_invariant {ops : List CacheOp} :
    ∀ {c : LRUCache}, Consistent c → (c.cache.length : Int) ≤ c.capacity →
    Consistent (runOps c ops) ∧
      ((runOps c ops).cache.length : Int) ≤ (runOps c ops).capacity ∧
      (runOps c ops).capacity = c.capacity := by
  induction ops with
  | nil =>
      intro c h hb
      exact ⟨h, hb, rfl⟩
  | cons op rest ih =>
      intro c h hb
      simp only [runOps]
      have h1 := consistent_applyOp h op
      have hb1 := length_applyOp_le h hb op
      obtain ⟨r1, r2, r3⟩ := ih h1 hb1
      exact ⟨r1, r2, by rw [r3, capacity_applyOp]⟩

theorem consistent_NewLRUCache (capacity : Int) :
    Consistent (NewLRUCache capacity) := by
  unfold Consistent NewLRUCache
  simp

/-! ### Explicit form of the eviction path of `Set` -/

theorem getLastD_eq_of_ne_nil {l : List ElemId} (h : l ≠ []) (d d' : ElemId) :
    l.getLastD d = l.getLastD d' := by
  cases l with
  | nil => exact absurd rfl h
  | cons x xs => rw [List.getLastD_cons, List.getLastD_cons]

/-- On a consistent, nonempty cache, a `Set` of an absent key that
overflows the capacity yields exactly: the new binding and element at the
front, the old tail element unlinked, and its key deleted from the map. -/
theorem Set_evict_result (c : LRUCache) {k : String} (v : GoVal) (ttl now : Nat)
    (h : Consistent c) (habs : alookup c.cache k = none)
    (hcap : (c.cache.length : Int) + 1 > c.capacity) (hnil : c.list ≠ []) :
    LRUCache.Set c k v ttl now =
      { capacity := c.capacity,
        cache := (k, c.nextId) :: aerase c.cache ((c.store (c.list.getLastD 0)).key),
        list := c.nextId :: c.list.erase (c.list.getLastD 0),
        store := storeUpdate c.store c.nextId ⟨k, v, now + ttl⟩,
        nextId := c.nextId + 1 } := by
  obtain ⟨n1, n2, h3, h4, h5, h6⟩ := h
  have hvic : c.list.getLastD 0 ∈ c.list := getLastD_mem hnil 0
  have hvlt : c.list.getLastD 0 < c.nextId := h5 _ hvic
  have hvne : c.list.getLastD 0 ≠ c.nextId := Nat.ne_of_lt hvlt
  have hins : ainsert c.cache k c.nextId = (k, c.nextId) :: c.cache := by
    unfold ainsert
    rw [aerase_of_alookup_eq_none habs]
  have hback : goBack (c.nextId :: c.list) = c.list.getLastD 0 := by
    unfold goBack
    rw [List.getLastD_cons]
    exact getLastD_eq_of_ne_nil hnil _ _
  have hstv : storeUpdate c.store c.nextId ⟨k, v, now + ttl⟩ (c.list.getLastD 0) =
      c.store (c.list.getLastD 0) := by
    unfold storeUpdate
    rw [if_neg hvne]
  have hvkey : (c.store (c.list.getLastD 0)).key ≠ k := by
    intro hkk
    have hh := h4 _ hvic
    rw [hkk, habs] at hh
    exact Option.noConfusion hh
  rw [Set_insert_evict v ttl now habs hcap]
  show ({ capacity := c.capacity,
          cache := aerase (setInsert c k v ttl now).cache
            (((setInsert c k v ttl now).store
              (goBack (setInsert c k v ttl now).list)).key),
          list := (setInsert c k v ttl now).list.erase
            (goBack (setInsert c k v ttl now).list),
          store := (setInsert c k v ttl now).store,
          nextId := (setInsert c k v ttl now).nextId } : LRUCache) = _
  have hl1 : (setInsert c k v ttl now).list = c.nextId :: c.list := rfl
  have hst1 : (setInsert c k v ttl now).store =
      storeUpdate c.store c.nextId ⟨k, v, now + ttl⟩ := rfl
  have hc1 : (setInsert c k v ttl now).cache = (k, c.nextId) :: c.cache := hins
  rw [hl1, hst1, hc1, hback, hstv]
  have herase : aerase ((k, c.nextId) :: c.cache) ((c.store (c.list.getLastD 0)).key) =
      (k, c.nextId) :: aerase c.cache ((c.store (c.list.getLastD 0)).key) := by
    show (if k = (c.store (c.list.getLastD 0)).key
        then aerase c.cache ((c.store (c.list.getLastD 0)).key)
        else (k, c.nextId) :: aerase c.cache ((c.store (c.list.getLastD 0)).key)) = _
    rw [if_neg (fun hh => hvkey hh.symm)]
  have hvne' : c.nextId ≠ c.list.getLastD 0 := fun hh => hvne hh.symm
  have herasel : (c.nextId :: c.list).erase (c.list.getLastD 0) =
      c.nextId :: c.list.erase (c.list.getLastD 0) := by
    rw [List.erase_cons_tail]
    simpa using hvne'
  rw [herase, herasel]
  rfl

/-! ### Output of the expiration sweep -/

theorem sweep_out_valid {pairs : List (String × ElemId)} :
    ∀ {c : LRUCache} {acc : List cacheEntry} {now : Nat},
    (∀ e ∈ acc, now < e.expiration) →
    ∀ e ∈ (sweep c pairs acc now).1, now < e.expiration := by
  induction pairs with
  | nil =>
      intro c acc now hacc e he
      exact hacc e he
  | cons p rest ih =>
      intro c acc now hacc e he
      obtain ⟨k, id⟩ := p
      unfold sweep at he
      by_cases hv : now < (c.store id).expiration
      · rw [if_pos hv] at he
        refine ih ?_ e he
        intro e' he'
        rcases List.mem_append.mp he' with hacc' | hone
        · exact hacc e' hacc'
        · rw [List.mem_singleton] at hone
          rw [hone]
          exact hv
      · rw [if_neg hv] at he
        exact ih hacc e he

theorem alookup_aerase_none {β : Type} {m : List (String × β)} {k k' : String}
    (h : alookup m k = none) : alookup (aerase m k') k = none := by
  by_cases hk : k = k'
  · subst hk
    exact alookup_aerase_self m k
  · rw [alookup_aerase_ne _ hk]
    exact h

theorem sweep_cache_none {pairs : List (String × ElemId)} :
    ∀ {c : LRUCache} {acc : List cacheEntry} {now : Nat} {k : String},
    alookup c.cache k = none →
    alookup (sweep c pairs acc now).2.cache k = none := by
  induction pairs with
  | nil =>
      intro c acc now k h
      exact h
  | cons p rest ih =>
      intro c acc now k h
      obtain ⟨k0, id⟩ := p
      unfold sweep
      by_cases hv : now < (c.store id).expiration
      · rw [if_pos hv]
        exact ih h
      · rw [if_neg hv]
        exact ih (alookup_aerase_none h)

theorem sweep_list_not_mem {pairs : List (String × ElemId)} :
    ∀ {c : LRUCache} {acc : List cacheEntry} {now : Nat} {id : ElemId},
    id ∉ c.list → id ∉ (sweep c pairs acc now).2.list := by
  induction pairs with
  | nil =>
      intro c acc now id h
      exact h
  | cons p rest ih =>
      intro c acc now id h
      obtain ⟨k0, id0⟩ := p
      unfold sweep
      by_cases hv : now < (c.store id0).expiration
      · rw [if_pos hv]
        exact ih h
      · rw [if_neg hv]
        exact ih (fun hmem => h (List.mem_of_mem_erase hmem))

theorem sweep_acc_subset {pairs : List (String × ElemId)} :
    ∀ {c : LRUCache} {acc : List cacheEntry} {now : Nat} {e : cacheEntry},
    e ∈ acc → e ∈ (sweep c pairs acc now).1 := by
  induction pairs with
  | nil =>
      intro c acc now e he
      exact he
  | cons p rest ih =>
      intro c acc now e he
      obtain ⟨k0, id0⟩ := p
      unfold sweep
      by_cases hv : now < (c.store id0).expiration
      · rw [if_pos hv]
        exact ih (List.mem_append.mpr (Or.inl he))
      · rw [if_neg hv]
        exact ih he

theorem sweep_keeps_valid {pairs : List (String × ElemId)} :
    ∀ {c : LRUCache} {acc : List cacheEntry} {now : Nat},
    ∀ p ∈ pairs, now < (c.store p.2).expiration →
    c.store p.2 ∈ (sweep c pairs acc now).1 := by
  induction pairs with
  | nil =>
      intro c acc now p hp
      exact absurd hp (List.not_mem_nil p)
  | cons q rest ih =>
      intro c acc now p hp hv
      obtain ⟨k0, id0⟩ := q
      unfold sweep
      rcases List.mem_cons.mp hp with hp | hp
      · subst hp
        rw [if_pos hv]
        exact sweep_acc_subset (List.mem_append.mpr (Or.inr (List.mem_singleton.mpr rfl)))
      · by_cases hv0 : now < (c.store id0).expiration
        · rw [if_pos hv0]
          exact ih p hp hv
        · rw [if_neg hv0]
          exact ih p hp hv

theorem sweep_removes_expired {pairs : List (String × ElemId)} :
    ∀ {c : LRUCache} {acc : List cacheEntry} {now : Nat}, Consistent c →
    (∀ p ∈ pairs, alookup c.cache p.1 = some p.2) →
    (pairs.map Prod.fst).Nodup →
    ∀ p ∈ pairs, (c.store p.2).expiration ≤ now →
    alookup (sweep c pairs acc now).2.cache p.1 = none ∧
      p.2 ∉ (sweep c pairs acc now).2.list := by
  induction pairs with
  | nil =>
      intro c acc now _ _ _ p hp
      exact absurd hp (List.not_mem_nil p)
  | cons q rest ih =>
      intro c acc now h hp hnd p hpmem hexp
      obtain ⟨k, id⟩ := q
      have hnd' : (k :: rest.map Prod.fst).Nodup := by simpa using hnd
      have hk : alookup c.cache k = some id := hp _ (List.mem_cons_self _ _)
      have hkey : (c.store id).key = k := (h.2.2.1 _ (mem_of_alookup_eq_some hk)).2
      unfold sweep
      rcases List.mem_cons.mp hpmem with hpq | hpmem
      · subst hpq
        have hv : ¬now < (c.store id).expiration := not_lt.mpr hexp
        rw [if_neg hv]
        constructor
        · apply sweep_cache_none
          show alookup (aerase c.cache ((c.store id).key)) k = none
          rw [hkey]
          exact alookup_aerase_self _ _
        · apply sweep_list_not_mem
          show id ∉ c.list.erase id
          exact h.2.1.not_mem_erase
      · have hrest : ∀ q' ∈ rest, q'.1 ≠ k := by
          intro q' hq' hh
          exact (List.nodup_cons.mp hnd').1
            (by rw [← hh]; exact List.mem_map.mpr ⟨q', hq', rfl⟩)
        by_cases hv : now < (c.store id).expiration
        · rw [if_pos hv]
          exact ih h (fun q' hq' => hp q' (List.mem_cons_of_mem _ hq'))
            (List.nodup_cons.mp hnd').2 p hpmem hexp
        · rw [if_neg hv]
          have h1 : Consistent { c with
              cache := aerase c.cache ((c.store id).key),
              list := c.list.erase id } := by
            rw [hkey]
            exact consistent_remove h hk
          refine ih h1 ?_ (List.nodup_cons.mp hnd').2 p hpmem hexp
          intro q' hq'
          show alookup (aerase c.cache ((c.store id).key)) q'.1 = some q'.2
          rw [hkey, alookup_aerase_ne _ (hrest q' hq')]
          exact hp q' (List.mem_cons_of_mem _ hq')

/-! ### The binding `Set` leaves for its key -/

theorem alookup_cons_self {β : Type} (m : List (String × β)) (k : String)
    (v : β) : alookup ((k, v) :: m) k = some v := by
  show (if k = k then some v else alookup m k) = some v
  rw [if_pos rfl]

theorem alookup_cons_ne {β : Type} (m : List (String × β)) {k k' : String}
    (v : β) (h : k ≠ k') : alookup ((k, v) :: m) k' = alookup m k' := by
  show (if k = k' then some v else alookup m k') = alookup m k'
  rw [if_neg h]

theorem alookup_ainsert_self {β : Type} (m : List (String × β)) (k : String)
    (v : β) : alookup (ainsert m k v) k = some v := by
  unfold ainsert
  exact alookup_cons_self _ _ _

theorem alookup_aerase_ainsert {β : Type} (m : List (String × β))
    (k vkey : String) (v : β) :
    alookup (aerase (ainsert m k v) vkey) k = none ∨
      alookup (aerase (ainsert m k v) vkey) k = some v := by
  by_cases hvk : k = vkey
  · subst hvk
    exact Or.inl (alookup_aerase_self _ _)
  · right
    rw [alookup_aerase_ne _ hvk]
    exact alookup_ainsert_self _ _ _

/-- Whenever `k` is still bound after `Set c k v ttl now`, the entry it is
bound to holds exactly the value `v` and the expiration `now + ttl`
(irrespective of which path `Set` took). -/
theorem Set_lookup_store (c : LRUCache) (k : String) (v : GoVal) (ttl now : Nat)
    {id : ElemId} (hid : alookup (LRUCache.Set c k v ttl now).cache k = some id) :
    ((LRUCache.Set c k v ttl now).store id).value = v ∧
    ((LRUCache.Set c k v ttl now).store id).expiration = now + ttl := by
  cases hl : alookup c.cache k with
  | some id0 =>
      rw [Set_update v ttl now hl] at hid ⊢
      have hid' : alookup c.cache k = some id := hid
      rw [hl, Option.some_inj] at hid'
      subst hid'
      constructor
      · show (storeUpdate c.store id0 ⟨(c.store id0).key, v, now + ttl⟩ id0).value = v
        unfold storeUpdate
        rw [if_pos rfl]
      · show (storeUpdate c.store id0
          ⟨(c.store id0).key, v, now + ttl⟩ id0).expiration = now + ttl
        unfold storeUpdate
        rw [if_pos rfl]
  | none =>
      by_cases hcap : (c.cache.length : Int) + 1 > c.capacity
      · rw [Set_insert_evict v ttl now hl hcap] at hid ⊢
        have hid' : alookup (aerase (ainsert c.cache k c.nextId)
            (((setInsert c k v ttl now).store
              (goBack (setInsert c k v ttl now).list)).key)) k = some id := hid
        rcases alookup_aerase_ainsert c.cache k
            (((setInsert c k v ttl now).store
              (goBack (setInsert c k v ttl now).list)).key) c.nextId with hnone | hsome
        · rw [hid'] at hnone
          exact Option.noConfusion hnone
        · rw [hid', Option.some_inj] at hsome
          subst hsome
          constructor
          · show (storeUpdate c.store c.nextId ⟨k, v, now + ttl⟩ c.nextId).value = v
            unfold storeUpdate
            rw [if_pos rfl]
          · show (storeUpdate c.store c.nextId
              ⟨k, v, now + ttl⟩ c.nextId).expiration = now + ttl
            unfold storeUpdate
            rw [if_pos rfl]
      · rw [Set_insert_fits v ttl now hl hcap] at hid ⊢
        have hid' : alookup (ainsert c.cache k c.nextId) k = some id := hid
        rw [alookup_ainsert_self, Option.some_inj] at hid'
        subst hid'
        constructor
        · show (storeUpdate c.store c.nextId ⟨k, v, now + ttl⟩ c.nextId).value = v
          unfold storeUpdate
          rw [if_pos rfl]
        · show (storeUpdate c.store c.nextId
            ⟨k, v, now + ttl⟩ c.nextId).expiration = now + ttl
          unfold storeUpdate
          rw [if_pos rfl]

theorem getHandler_status (c : LRUCache) (key : String) (now : Nat) :
    (getHandler c key now).1 =
      if (LRUCache.Get c key now).1 ≠ none then 200 else 404 := by
  unfold getHandler
  by_cases h : (LRUCache.Get c key now).1 ≠ none
  · rw [if_pos h, if_pos h]
  · rw [if_neg h, if_neg h]

/-! ### Concrete states used to evaluate the theorems -/

/-- A two-entry heap: element 0 holds `("a", "va")` expiring at 100,
element 1 holds `("b", "vb")` expiring at 40. -/
def exStore : ElemId → cacheEntry := fun i =>
  if i = 0 then ⟨"a", some "va", 100⟩
  else if i = 1 then ⟨"b", some "vb", 40⟩
  else ⟨"", none, 0⟩

/-- A full (capacity 2) consistent cache holding keys `"a"` and `"b"`,
with `"a"` most recently used. -/
def exCache : LRUCache :=
  { capacity := 2, cache := [("a", 0), ("b", 1)], list := [0, 1],
    store := exStore, nextId := 2 }

/-! ### The claims -/

/-- **C1.** `Get(k)`: an absent key returns not-found with the state
unchanged; a present key whose expiration is at or before `now` is removed
from both the lookup table and the recency index and not-found is
returned; a present key with strictly-future expiration is moved to the
head of the recency index and its stored value is returned, with the
lookup table and the entry store (hence the entry's value and expiration)
untouched. -/
theorem C1_get_contract (c : LRUCache) (k : String) (now : Nat)
    (h : Consistent c) :
    (alookup c.cache k = none → LRUCache.Get c k now = (none, c)) ∧
    (∀ id, alookup c.cache k = some id → (c.store id).expiration ≤ now →
      (LRUCache.Get c k now).1 = none ∧
      alookup (LRUCache.Get c k now).2.cache k = none ∧
      id ∉ (LRUCache.Get c k now).2.list) ∧
    (∀ id, alookup c.cache k = some id → now < (c.store id).expiration →
      (LRUCache.Get c k now).1 = (c.store id).value ∧
      (LRUCache.Get c k now).2.list = id :: c.list.erase id ∧
      (LRUCache.Get c k now).2.cache = c.cache ∧
      (LRUCache.Get c k now).2.store = c.store) := by
  refine ⟨fun hn => Get_absent now hn, ?_, ?_⟩
  · intro id hid hexp
    have hv : ¬now < (c.store id).expiration := not_lt.mpr hexp
    rw [Get_expired hid hv]
    exact ⟨rfl, alookup_aerase_self _ _, h.2.1.not_mem_erase⟩
  · intro id hid hv
    rw [Get_valid hid hv]
    exact ⟨rfl, rfl, rfl, rfl⟩

theorem C1_witness :
    Consistent exCache ∧ (LRUCache.Get exCache "a" 50).1 = some "va" :=
  ⟨by decide,
    ((C1_get_contract exCache "a" 50 (by decide)).2.2 0 (by decide) (by decide)).1⟩

/-- **C4.** Every operation (`Get`, `Set`, `ClearCache`, `GetCacheState`)
preserves structural consistency: the lookup table and the recency index
hold the same keys/elements, each binding points at the element holding
its entry, and the key stored inside the entry equals the key it is
indexed under. -/
theorem C4_ops_preserve_consistency (c : LRUCache) (op : CacheOp)
    (h : Consistent c) : Consistent (applyOp c op) :=
  consistent_applyOp h op

theorem C4_witness :
    Consistent exCache ∧
      Consistent (applyOp exCache (CacheOp.set "c" (some "vc") 60 10)) :=
  ⟨by decide,
    C4_ops_preserve_consistency exCache (CacheOp.set "c" (some "vc") 60 10)
      (by decide)⟩

/-- **C3.** Starting from a cache constructed with a positive capacity,
after any sequence of `Get`/`Set`/`ClearCache`/`GetCacheState` operations
the number of entries is at most the capacity. -/
theorem C3_size_bounded (capacity : Int) (ops : List CacheOp)
    (hpos : 0 < capacity) :
    ((runOps (NewLRUCache capacity) ops).cache.length : Int) ≤ capacity := by
  have h0 : Consistent (NewLRUCache capacity) := consistent_NewLRUCache capacity
  have hb0 : ((NewLRUCache capacity).cache.length : Int) ≤
      (NewLRUCache capacity).capacity := by
    show ((0 : Nat) : Int) ≤ capacity
    omega
  obtain ⟨_, r2, r3⟩ := runOps_invariant h0 hb0
  rw [r3] at r2
  exact r2

theorem C3_witness :
    0 < (2 : Int) ∧
      ((runOps (NewLRUCache 2)
        [CacheOp.set "a" (some "1") 60 0, CacheOp.set "b" (some "2") 60 1,
         CacheOp.set "c" (some "3") 60 2, CacheOp.get "a" 3,
         CacheOp.snapshot 4]).cache.length : Int) ≤ 2 :=
  ⟨by decide,
    C3_size_bounded 2
      [CacheOp.set "a" (some "1") 60 0, CacheOp.set "b" (some "2") 60 1,
       CacheOp.set "c" (some "3") 60 2, CacheOp.get "a" 3,
       CacheOp.snapshot 4] (by decide)⟩

/-- **C8.** `ClearCache` empties both structures (size becomes 0), leaves
the capacity unchanged, never fails, and afterwards `Get` returns
not-found for every key. -/
theorem C8_clear_contract (c : LRUCache) :
    (LRUCache.ClearCache c).cache = [] ∧
    (LRUCache.ClearCache c).list = [] ∧
    (LRUCache.ClearCache c).cache.length = 0 ∧
    (LRUCache.ClearCache c).capacity = c.capacity ∧
    (∀ k now, LRUCache.Get (LRUCache.ClearCache c) k now =
      (none, LRUCache.ClearCache c)) := by
  refine ⟨rfl, rfl, rfl, rfl, ?_⟩
  intro k now
  exact Get_absent now rfl

/-- **C2.** On a consistent cache already holding exactly `capacity`
(positive) keys, `Set` of an absent key inserts the new binding and
element at the head of both structures and evicts exactly the tail of the
recency index — the least recently touched entry: its key leaves the
lookup table and its element leaves the list, every other binding and
element survives, and the size returns to `capacity`. -/
theorem C2_set_at_capacity_evicts_lru (c : LRUCache) (k : String) (v : GoVal)
    (ttl now : Nat) (h : Consistent c) (hpos : 0 < c.capacity)
    (hfull : (c.cache.length : Int) = c.capacity)
    (habs : alookup c.cache k = none) :
    alookup (LRUCache.Set c k v ttl now).cache k = some c.nextId ∧
    (LRUCache.Set c k v ttl now).list.head? = some c.nextId ∧
    alookup (LRUCache.Set c k v ttl now).cache
      ((c.store (c.list.getLastD 0)).key) = none ∧
    c.list.getLastD 0 ∉ (LRUCache.Set c k v ttl now).list ∧
    (∀ k', k' ≠ k → k' ≠ (c.store (c.list.getLastD 0)).key →
      alookup (LRUCache.Set c k v ttl now).cache k' = alookup c.cache k') ∧
    (∀ id ∈ c.list, id ≠ c.list.getLastD 0 →
      id ∈ (LRUCache.Set c k v ttl now).list) ∧
    ((LRUCache.Set c k v ttl now).cache.length : Int) = c.capacity := by
  have hcap : (c.cache.length : Int) + 1 > c.capacity := by omega
  have hnil : c.list ≠ [] := by
    intro hh
    have h6 := h.2.2.2.2.2
    rw [hh] at h6
    simp only [List.length_nil] at h6
    omega
  rw [Set_evict_result c v ttl now h habs hcap hnil]
  obtain ⟨n1, n2, h3, h4, h5, h6⟩ := h
  have hvic : c.list.getLastD 0 ∈ c.list := getLastD_mem hnil 0
  have hvne : c.list.getLastD 0 ≠ c.nextId := Nat.ne_of_lt (h5 _ hvic)
  have hlookv := h4 _ hvic
  have hvkey : (c.store (c.list.getLastD 0)).key ≠ k := by
    intro hkk
    rw [hkk, habs] at hlookv
    exact Option.noConfusion hlookv
  refine ⟨?_, ?_, ?_, ?_, ?_, ?_, ?_⟩
  · exact alookup_cons_self _ _ _
  · rfl
  · show alookup ((k, c.nextId) ::
        aerase c.cache ((c.store (c.list.getLastD 0)).key))
        ((c.store (c.list.getLastD 0)).key) = none
    rw [alookup_cons_ne _ _ (fun hh => hvkey hh.symm)]
    exact alookup_aerase_self _ _
  · show c.list.getLastD 0 ∉
      c.nextId :: c.list.erase (c.list.getLastD 0)
    intro hmem
    rcases List.mem_cons.mp hmem with hh | hh
    · exact hvne hh
    · exact n2.not_mem_erase hh
  · intro k' hk hkv
    show alookup ((k, c.nextId) ::
        aerase c.cache ((c.store (c.list.getLastD 0)).key)) k' =
      alookup c.cache k'
    rw [alookup_cons_ne _ _ (fun hh => hk hh.symm)]
    exact alookup_aerase_ne _ hkv
  · intro id hid hne
    show id ∈ c.nextId :: c.list.erase (c.list.getLastD 0)
    exact List.mem_cons_of_mem _ (n2.mem_erase_iff.mpr ⟨hne, hid⟩)
  · show ((((k, c.nextId) ::
      aerase c.cache ((c.store (c.list.getLastD 0)).key)).length : Nat) : Int) =
      c.capacity
    have e1 := length_aerase_of_alookup_eq_some n1 hlookv
    simp only [List.length_cons]
    omega

theorem C2_witness :
    Consistent exCache ∧ 0 < exCache.capacity ∧
      (exCache.cache.length : Int) = exCache.capacity ∧
      alookup exCache.cache "c" = none ∧
      alookup (LRUCache.Set exCache "c" (some "vc") 60 10).cache "b" = none :=
  ⟨by decide, by decide, by decide, by decide,
    (C2_set_at_capacity_evicts_lru exCache "c" (some "vc") 60 10 (by decide)
      (by decide) (by decide) (by decide)).2.2.1⟩

/-- **C5.** `Set` on an already-present key updates that entry's value and
expiration in place (same element, key untouched), moves its element to
the head of the recency index, leaves the lookup table untouched and both
sizes unchanged: no eviction happens on an update. -/
theorem C5_set_existing_updates_in_place (c : LRUCache) (k : String)
    (v : GoVal) (ttl now : Nat) (id : ElemId) (h : Consistent c)
    (hk : alookup c.cache k = some id) :
    (LRUCache.Set c k v ttl now).cache = c.cache ∧
    (LRUCache.Set c k v ttl now).store id = ⟨(c.store id).key, v, now + ttl⟩ ∧
    (∀ i, i ≠ id → (LRUCache.Set c k v ttl now).store i = c.store i) ∧
    (LRUCache.Set c k v ttl now).list = id :: c.list.erase id ∧
    (LRUCache.Set c k v ttl now).list.length = c.list.length ∧
    (LRUCache.Set c k v ttl now).cache.length = c.cache.length := by
  have hid : id ∈ c.list := (h.2.2.1 _ (mem_of_alookup_eq_some hk)).1
  have hlen := List.length_erase_add_one hid
  rw [Set_update v ttl now hk]
  refine ⟨rfl, ?_, ?_, rfl, ?_, rfl⟩
  · show storeUpdate c.store id ⟨(c.store id).key, v, now + ttl⟩ id = _
    unfold storeUpdate
    rw [if_pos rfl]
  · intro i hi
    show storeUpdate c.store id ⟨(c.store id).key, v, now + ttl⟩ i = c.store i
    unfold storeUpdate
    rw [if_neg hi]
  · show (moveToFront c.list id).length = c.list.length
    unfold moveToFront
    simp only [List.length_cons]
    omega

theorem C5_witness :
    Consistent exCache ∧ alookup exCache.cache "b" = some 1 ∧
      (LRUCache.Set exCache "b" (some "v2") 60 10).store 1 =
        ⟨"b", some "v2", 70⟩ ∧
      (LRUCache.Set exCache "b" (some "v2") 60 10).cache = exCache.cache :=
  ⟨by decide, by decide,
    (C5_set_existing_updates_in_place exCache "b" (some "v2") 60 10 1
      (by decide) (by decide)).2.1,
    (C5_set_existing_updates_in_place exCache "b" (some "v2") 60 10 1
      (by decide) (by decide)).1⟩

/-- **C6.** After `Set(k, v, 0)` the entry bound to `k` (if any) carries
the expiration instant of the `Set` itself, and since `Get`'s validity
check requires a strictly-future expiration, every `Get(k)` at or after
that instant returns not-found: a zero-TTL entry is never retrievable. -/
theorem C6_zero_ttl_never_retrievable (c : LRUCache) (k : String) (v : GoVal)
    (now now' : Nat) (hle : now ≤ now') :
    (∀ id, alookup (LRUCache.Set c k v 0 now).cache k = some id →
      ((LRUCache.Set c k v 0 now).store id).expiration = now) ∧
    (LRUCache.Get (LRUCache.Set c k v 0 now) k now').1 = none := by
  constructor
  · intro id hid
    have he := (Set_lookup_store c k v 0 now hid).2
    omega
  · cases hid : alookup (LRUCache.Set c k v 0 now).cache k with
    | none => rw [Get_absent now' hid]
    | some id =>
        have he := (Set_lookup_store c k v 0 now hid).2
        have hnl : ¬now' < ((LRUCache.Set c k v 0 now).store id).expiration := by
          omega
        rw [Get_expired hid hnl]

theorem C6_witness :
    (10 : Nat) ≤ 10 ∧
      (LRUCache.Get (LRUCache.Set exCache "x" (some "vx") 0 10) "x" 10).1 =
        none :=
  ⟨by decide,
    (C6_zero_ttl_never_retrievable exCache "x" (some "vx") 10 10
      (by decide)).2⟩

/-- **C7.** `GetCacheState` (Snapshot) returns exactly the entries whose
expiration is strictly in the future: every returned entry is strictly
unexpired, every expired binding it scans is removed from both the lookup
table and the recency index, every unexpired binding's entry is included,
and a later snapshot at any `now' ≥ now` contains no entry already expired
at the first call. -/
theorem C7_snapshot_contract (c : LRUCache) (now : Nat) (h : Consistent c) :
    (∀ e ∈ (LRUCache.GetCacheState c now).1, now < e.expiration) ∧
    (∀ p ∈ c.cache, (c.store p.2).expiration ≤ now →
      alookup (LRUCache.GetCacheState c now).2.cache p.1 = none ∧
      p.2 ∉ (LRUCache.GetCacheState c now).2.list) ∧
    (∀ p ∈ c.cache, now < (c.store p.2).expiration →
      c.store p.2 ∈ (LRUCache.GetCacheState c now).1) ∧
    (∀ now', now ≤ now' →
      ∀ e ∈ (LRUCache.GetCacheState (LRUCache.GetCacheState c now).2 now').1,
        ¬e.expiration ≤ now) := by
  have hall : ∀ p ∈ c.cache, alookup c.cache p.1 = some p.2 :=
    fun p hp => alookup_eq_some_of_mem h.1 hp
  unfold LRUCache.GetCacheState
  refine ⟨sweep_out_valid (fun e he => absurd he (List.not_mem_nil e)), ?_, ?_, ?_⟩
  · intro p hp hexp
    exact sweep_removes_expired h hall h.1 p hp hexp
  · intro p hp hv
    exact sweep_keeps_valid p hp hv
  · intro now' hnn e he
    have hv := sweep_out_valid (fun e' he' => absurd he' (List.not_mem_nil e')) e he
    omega

theorem C7_witness :
    Consistent exCache ∧
      alookup (LRUCache.GetCacheState exCache 50).2.cache "b" = none :=
  ⟨by decide,
    ((C7_snapshot_contract exCache 50 (by decide)).2.1 ("b", 1) (by decide)
      (by decide)).1⟩

/-- **C9.** The core `Get` reports not-found through the `nil` sentinel:
after storing the `nil` value under a live key, `Get` returns `nil`,
exactly what it returns for a key never stored, so the HTTP lookup
handler answers 404 in both situations. -/
theorem C9_nil_value_indistinguishable (c : LRUCache) (k : String)
    (ttl now now' : Nat) (_httl : 0 < ttl) (_hle : now ≤ now') :
    (LRUCache.Get (LRUCache.Set c k none ttl now) k now').1 = none ∧
    (getHandler (LRUCache.Set c k none ttl now) k now').1 = 404 ∧
    (∀ k', alookup c.cache k' = none →
      (LRUCache.Get c k' now').1 = none ∧ (getHandler c k' now').1 = 404) := by
  have hget : (LRUCache.Get (LRUCache.Set c k none ttl now) k now').1 = none := by
    cases hid : alookup (LRUCache.Set c k none ttl now).cache k with
    | none => rw [Get_absent now' hid]
    | some id =>
        by_cases hv : now' < ((LRUCache.Set c k none ttl now).store id).expiration
        · rw [Get_valid hid hv]
          exact (Set_lookup_store c k none ttl now hid).1
        · rw [Get_expired hid hv]
  refine ⟨hget, ?_, ?_⟩
  · rw [getHandler_status, hget]
    simp
  · intro k' hk'
    have hg : (LRUCache.Get c k' now').1 = none := by
      rw [Get_absent now' hk']
    refine ⟨hg, ?_⟩
    rw [getHandler_status, hg]
    simp

theorem C9_witness :
    0 < (5 : Nat) ∧ (10 : Nat) ≤ 12 ∧
      (getHandler (LRUCache.Set exCache "n" none 5 10) "n" 12).1 = 404 :=
  ⟨by decide, by decide,
    (C9_nil_value_indistinguishable exCache "n" 5 10 12 (by decide)
      (by decide)).2.1⟩
